import Mathlib

/-!
Verification of `saferand` (a cryptographically secure drop-in replacement
for `exp/rand` / `math/rand`) against its natural-language specification.

The package wraps the OS cryptographic byte facility (`crypto/rand.Read`)
behind the `exp/rand` Source interface.  We embed the package shallowly:

* an 8-byte entropy read is a `Buf8` (`Fin 8 → Fin 256`);
* the OS facility is a stream of read results, one per read performed:
  `Nat → Except Err Buf8` (a failed read carries an error value);
* Go `panic` is modelled by the `Outcome.panicked` constructor, a normal
  return by `Outcome.ok`;
* the unbounded rejection loop in `ExpSource.Int63` is modelled by
  `Nat.find` over the stream, under the hypothesis that some iteration
  halts the loop (either a failed read, which panics, or an accepted
  value, which returns).

Functions of the package that merely delegate to `golang.org/x/exp/rand`
(whose source is not part of this repository) are modelled from the
specification's description of them; each such definition carries a
doc comment starting with `Modelled from the spec:`.
-/

namespace Saferand

/-- Error values produced by the OS entropy facility (Go `error`). -/
abbrev Err := String

/-- A single byte. -/
abbrev Byte := Fin 256

/-- An 8-byte buffer, the unit of entropy read by the integer draws
(`buf := make([]byte, 8)` filled by `rand.Read`). -/
abbrev Buf8 := Fin 8 → Byte

/-- How a Go function call ends: a normal return carrying a value, or a
panic carrying an error. -/
inductive Outcome (α : Type) where
  | ok : α → Outcome α
  | panicked : Err → Outcome α
deriving DecidableEq

/-- Go `binary.BigEndian.Uint64(buf)`: the 8 bytes interpreted as a
big-endian 64-bit unsigned integer. -/
def bigEndianUint64 (b : Buf8) : Nat :=
  (b 0).val * 2 ^ 56 + (b 1).val * 2 ^ 48 + (b 2).val * 2 ^ 40 + (b 3).val * 2 ^ 32 +
    (b 4).val * 2 ^ 24 + (b 5).val * 2 ^ 16 + (b 6).val * 2 ^ 8 + (b 7).val

/-- Go `binary.LittleEndian.Uint64(buf)`: the 8 bytes interpreted as a
little-endian 64-bit unsigned integer. -/
def littleEndianUint64 (b : Buf8) : Nat :=
  (b 7).val * 2 ^ 56 + (b 6).val * 2 ^ 48 + (b 5).val * 2 ^ 40 + (b 4).val * 2 ^ 32 +
    (b 3).val * 2 ^ 24 + (b 2).val * 2 ^ 16 + (b 1).val * 2 ^ 8 + (b 0).val

/-- Go `buf[0] &= byte(mask)` with `mask = 1<<7 - 1`: clear the top bit of
the first byte of the buffer. -/
def maskTop (b : Buf8) : Buf8 := fun i =>
  if i = 0 then ⟨(b 0).val &&& 127, Nat.lt_of_le_of_lt Nat.and_le_right (by norm_num)⟩
  else b i

/-- The value `x := binary.BigEndian.Uint64(buf)` computed by one iteration
of `ExpSource.Int63` after the top bit of `buf[0]` is cleared. -/
def maskedValue (b : Buf8) : Nat := bigEndianUint64 (maskTop b)

/-- `ExpSource` is Go's empty struct `type ExpSource struct{}`: a stateless
entropy source capability. -/
structure ExpSource where

/-- Whether an iteration of the `ExpSource.Int63` loop whose read returned
`r` makes the loop continue (retry): it does exactly when the read
succeeded and the masked big-endian value failed the test
`x < math.MaxInt64` (a failed read instead panics, halting the loop). -/
def int63Rejects : Except Err Buf8 → Bool
  | .error _ => false
  | .ok b => decide (2 ^ 63 - 1 ≤ maskedValue b)

/-- Go `func (ExpSource) Int63() int64`: loop forever; each iteration reads
8 fresh bytes (`rand.Read(buf)`, panicking on error), clears the top bit of
the first byte, interprets the buffer big-endian, and returns the value
unless it equals `math.MaxInt64 = 2^63 - 1`, in which case it retries.
`stream i` is the result of the read performed by iteration `i`; `h` says
some iteration halts the loop, and the result is that of the first halting
iteration. -/
def ExpSource.Int63 (_src : ExpSource) (stream : Nat → Except Err Buf8)
    (h : ∃ i, int63Rejects (stream i) = false) : Outcome Int :=
  match stream (Nat.find h) with
  | .error e => .panicked e
  | .ok b => .ok (maskedValue b)

/-- Go `func (ExpSource) Uint64() uint64`: one 8-byte read (panicking on
error), interpreted little-endian. `r` is the result of that read. -/
def ExpSource.Uint64 (_src : ExpSource) (r : Except Err Buf8) : Outcome Nat :=
  match r with
  | .error e => .panicked e
  | .ok b => .ok (littleEndianUint64 b)

/-- Go `func (ExpSource) Seed(_ uint64) {}`: the seed is discarded and the
(stateless) source is unchanged. -/
def ExpSource.Seed (src : ExpSource) (_seed : Nat) : ExpSource := src

/-- Go package-level `func Seed(_ uint64) {}`: a no-op. -/
def Seed (_seed : Nat) : Unit := ()

/-- Go `func Read(p []byte) (int, error) { return rand.Read(p) }`.
Modelled from the spec: `crypto/rand.Read` (the OS entropy facility) is
outside this repository; its result — a byte count together with an
optional error — is taken as the parameter `osResult`, and `Read` forwards
it unchanged to the caller as a normal return (it never panics). -/
def Read (osResult : Nat × Option Err) : Outcome (Nat × Option Err) :=
  .ok osResult

/-- Modelled from the spec: the package-level `Int63()` delegates through
`golang.org/x/exp/rand` (not in this repository), a "direct pass-through"
of the Entropy Source's `Int63`. -/
def Int63 (stream : Nat → Except Err Buf8)
    (h : ∃ i, int63Rejects (stream i) = false) : Outcome Int :=
  ExpSource.Int63 ⟨⟩ stream h

/-- Any byte is at most 255. -/
theorem byte_le (x : Byte) : x.val ≤ 255 := Nat.lt_succ_iff.mp x.isLt

/-- After masking, the big-endian value is at most `2^63 - 1`. -/
theorem maskedValue_le (b : Buf8) : maskedValue b ≤ 2 ^ 63 - 1 := by
  have h0 : ((maskTop b) 0).val ≤ 127 := by
    simp only [maskTop, if_pos rfl]
    exact Nat.and_le_right
  have h1 := byte_le (maskTop b 1)
  have h2 := byte_le (maskTop b 2)
  have h3 := byte_le (maskTop b 3)
  have h4 := byte_le (maskTop b 4)
  have h5 := byte_le (maskTop b 5)
  have h6 := byte_le (maskTop b 6)
  have h7 := byte_le (maskTop b 7)
  unfold maskedValue bigEndianUint64
  norm_num at *
  omega

/-- Any value returned normally by `ExpSource.Int63` lies in
`[0, 2^63 - 2]` (shared workhorse lemma). -/
theorem int63_ok_bounds (src : ExpSource) (stream : Nat → Except Err Buf8)
    (h : ∃ i, int63Rejects (stream i) = false) (x : Int)
    (hx : src.Int63 stream h = .ok x) :
    0 ≤ x ∧ x ≤ 2 ^ 63 - 2 := by
  have hfind := Nat.find_spec h
  unfold ExpSource.Int63 at hx
  rcases he : stream (Nat.find h) with e | b
  · rw [he] at hx
    exact absurd hx (by simp)
  · rw [he] at hx
    simp only [Outcome.ok.injEq] at hx
    rw [he] at hfind
    simp only [int63Rejects, decide_eq_false_iff_not, not_le] at hfind
    subst hx
    refine ⟨Int.ofNat_nonneg _, ?_⟩
    have hlt : maskedValue b < 2 ^ 63 - 1 := hfind
    norm_num at hlt ⊢
    omega

/-- `C1`: every value returned (normally) by `ExpSource.Int63`, and hence
by the package-level `Int63` draw, lies in `[0, 2^63 - 2]`: never negative
and never equal to `2^63 - 1`. -/
theorem int63_range (src : ExpSource) (stream : Nat → Except Err Buf8)
    (h : ∃ i, int63Rejects (stream i) = false) (x : Int)
    (hsrc : src.Int63 stream h = .ok x ∨ Int63 stream h = .ok x) :
    0 ≤ x ∧ x ≤ 2 ^ 63 - 2 := by
  rcases hsrc with h' | h'
  · exact int63_ok_bounds src stream h x h'
  · exact int63_ok_bounds ⟨⟩ stream h x h'

/-- The all-zero 8-byte read: every byte is 0. -/
def bufZero : Buf8 := fun _ => ⟨0, by norm_num⟩

/-- The stream of successful all-zero reads. -/
def streamZero : Nat → Except Err Buf8 := fun _ => Except.ok bufZero

/-- A stream of successful all-zero reads halts the loop at iteration 0. -/
theorem streamZero_halts : ∃ i, int63Rejects (streamZero i) = false :=
  ⟨0, by decide⟩

/-- On the all-zero stream the loop accepts immediately and returns 0. -/
theorem int63_streamZero : ExpSource.Int63 ⟨⟩ streamZero streamZero_halts = .ok 0 := by
  have hf : Nat.find streamZero_halts = 0 :=
    (Nat.find_eq_zero streamZero_halts).mpr (by decide)
  unfold ExpSource.Int63
  rw [hf]
  have : maskedValue bufZero = 0 := by decide
  simp [streamZero, this]

/-- Witness for `C1`: on a stream of all-zero reads the loop accepts
immediately and the returned value 0 lies in the stated range. -/
theorem int63_range_witness :
    (0 : Int) ≤ 0 ∧ (0 : Int) ≤ 2 ^ 63 - 2 :=
  int63_range ⟨⟩ streamZero streamZero_halts 0 (Or.inl int63_streamZero)

/-- `C2`: for a stream of successful entropy reads, an iteration of the
`ExpSource.Int63` loop retries exactly when its masked big-endian value
equals `2^63 - 1`; under the hypothesis that some iteration's value differs
from `2^63 - 1` the loop terminates, every iteration before the first
accepting one saw exactly the value `2^63 - 1`, and the accepted result is
the masked value of the fresh 8-byte read of the accepting iteration. -/
theorem int63_retry (entropy : Nat → Buf8) :
    (∀ b : Buf8, int63Rejects (Except.ok b) = true ↔ maskedValue b = 2 ^ 63 - 1) ∧
    ∀ h : ∃ i, int63Rejects ((fun i => Except.ok (entropy i)) i) = false,
      (∀ j < Nat.find h, maskedValue (entropy j) = 2 ^ 63 - 1) ∧
      ∀ src : ExpSource,
        src.Int63 (fun i => Except.ok (entropy i)) h =
          .ok (maskedValue (entropy (Nat.find h))) := by
  have hiff : ∀ b : Buf8, int63Rejects (Except.ok b) = true ↔ maskedValue b = 2 ^ 63 - 1 := by
    intro b
    simp only [int63Rejects, decide_eq_true_eq]
    constructor
    · intro hle
      exact le_antisymm (maskedValue_le b) hle
    · intro heq
      exact ge_of_eq heq
  refine ⟨hiff, fun h => ⟨?_, fun src => rfl⟩⟩
  intro j hj
  have hmin := Nat.find_min h hj
  simp only [Bool.not_eq_false] at hmin
  exact (hiff (entropy j)).mp hmin

/-- The all-0xFF 8-byte read: after masking its big-endian value is
exactly `2^63 - 1`, the single rejected value. -/
def bufFF : Buf8 := fun _ => ⟨255, by norm_num⟩

/-- An entropy stream whose first read is rejected (all-0xFF) and whose
later reads are accepted (all-zero). -/
def entropyRetry : Nat → Buf8 := fun i => if i = 0 then bufFF else bufZero

/-- The `entropyRetry` stream halts the loop (at iteration 1). -/
theorem entropyRetry_halts :
    ∃ i, int63Rejects ((fun i => Except.ok (entropyRetry i)) i) = false :=
  ⟨1, by decide⟩

/-- Witness for `C2`: on `entropyRetry`, iteration 0 draws exactly
`2^63 - 1` and is retried, and the loop returns the masked value of the
fresh read of iteration 1. -/
theorem int63_retry_witness :
    maskedValue (entropyRetry 0) = 2 ^ 63 - 1 ∧
    ExpSource.Int63 ⟨⟩ (fun i => Except.ok (entropyRetry i)) entropyRetry_halts =
      .ok (maskedValue (entropyRetry 1)) := by
  have hfind : Nat.find entropyRetry_halts = 1 :=
    (Nat.find_eq_iff entropyRetry_halts).mpr ⟨by decide, by decide⟩
  obtain ⟨-, hrest⟩ := int63_retry entropyRetry
  obtain ⟨hmin, hres⟩ := hrest entropyRetry_halts
  refine ⟨hmin 0 (by rw [hfind]; norm_num), ?_⟩
  have := hres ⟨⟩
  rwa [hfind] at this

/-- `C3`: an entropy-facility failure panics on the integer-draw path
(`ExpSource.Uint64` and `ExpSource.Int63` turn a failed read into a panic
carrying the error, neither retrying nor returning it), whereas `Read`
returns the facility's result — byte count and error — to the caller as a
normal value. -/
theorem entropy_failure_paths (src : ExpSource) (e : Err) (res : Nat × Option Err) :
    src.Uint64 (Except.error e) = .panicked e ∧
    src.Int63 (fun _ => Except.error e) ⟨0, rfl⟩ = .panicked e ∧
    Read res = .ok res := by
  refine ⟨rfl, ?_, rfl⟩
  have hf : Nat.find (⟨0, rfl⟩ : ∃ i, int63Rejects ((fun _ => Except.error e) i) = false) = 0 :=
    (Nat.find_eq_zero _).mpr rfl
  unfold ExpSource.Int63
  rw [hf]

/-- `C5`: seeding is a no-op: `ExpSource.Seed` discards the seed value and
leaves the source unchanged, the package-level `Seed` returns nothing, and
every subsequent draw (`Int63`, `Uint64`) is unaffected by a prior seed
call. -/
theorem seed_noop (src : ExpSource) (v : Nat) (stream : Nat → Except Err Buf8)
    (h : ∃ i, int63Rejects (stream i) = false) (r : Except Err Buf8) :
    src.Seed v = src ∧ Seed v = () ∧
    (src.Seed v).Int63 stream h = src.Int63 stream h ∧
    (src.Seed v).Uint64 r = src.Uint64 r :=
  ⟨rfl, rfl, rfl, rfl⟩

/-- Witness for `C5`: seeding the source with 42 leaves it unchanged and
does not change the result of a subsequent `Int63` or `Uint64` draw. -/
theorem seed_noop_witness :
    ExpSource.Seed ⟨⟩ 42 = ⟨⟩ ∧ Seed 42 = () ∧
    (ExpSource.Seed ⟨⟩ 42).Int63 streamZero streamZero_halts =
      ExpSource.Int63 ⟨⟩ streamZero streamZero_halts ∧
    (ExpSource.Seed ⟨⟩ 42).Uint64 (Except.ok bufZero) =
      ExpSource.Uint64 ⟨⟩ (Except.ok bufZero) :=
  seed_noop ⟨⟩ 42 streamZero streamZero_halts (Except.ok bufZero)

/-- Result of a bounded integer draw: a value, or a caller error for a
non-positive bound. -/
inductive DrawResult where
  | ok : Int → DrawResult
  | callerError
deriving DecidableEq

/-- Modelled from the spec: the unbiased bounded-sampling core of the
`exp/rand` bounded draws (not in this repository): given a stream of
uniform `w`-bit source draws, fail with a caller error when `n ≤ 0`;
otherwise reject every draw outside the largest multiple of `n` that fits
in `w` bits ("division-based rejection") and reduce the first accepted
draw modulo `n`. `h` says some draw is accepted. -/
def boundedDraw (w : Nat) (draws : Nat → Nat) (n : Int)
    (h : 0 < n → ∃ i, draws i < 2 ^ w / n.toNat * n.toNat) : DrawResult :=
  if hn : n ≤ 0 then .callerError
  else .ok ((draws (Nat.find (h (by omega))) % n.toNat : Nat) : Int)

/-- Modelled from the spec: `Int63n(n)` — uniform in `[0, n)` for `n > 0`
from 63-bit source draws, caller error otherwise. -/
def Int63n (draws : Nat → Nat) (n : Int)
    (h : 0 < n → ∃ i, draws i < 2 ^ 63 / n.toNat * n.toNat) : DrawResult :=
  boundedDraw 63 draws n h

/-- Modelled from the spec: `Int31n(n)` — uniform in `[0, n)` for `n > 0`
from 31-bit source draws, caller error otherwise. -/
def Int31n (draws : Nat → Nat) (n : Int)
    (h : 0 < n → ∃ i, draws i < 2 ^ 31 / n.toNat * n.toNat) : DrawResult :=
  boundedDraw 31 draws n h

/-- Modelled from the spec: `Intn(n)` — uniform in `[0, n)` for `n > 0`
(the int width is 64 bits, so 63-bit draws), caller error otherwise. -/
def Intn (draws : Nat → Nat) (n : Int)
    (h : 0 < n → ∃ i, draws i < 2 ^ 63 / n.toNat * n.toNat) : DrawResult :=
  boundedDraw 63 draws n h

/-- The generic bounded draw fails on `n ≤ 0` and otherwise produces a
value in `[0, n)`. -/
theorem boundedDraw_spec (w : Nat) (draws : Nat → Nat) (n : Int)
    (h : 0 < n → ∃ i, draws i < 2 ^ w / n.toNat * n.toNat) :
    (n ≤ 0 → boundedDraw w draws n h = .callerError) ∧
    (0 < n → ∃ v, boundedDraw w draws n h = .ok v ∧ 0 ≤ v ∧ v < n) := by
  constructor
  · intro hn
    simp [boundedDraw, hn]
  · intro hn
    have hn' : ¬ n ≤ 0 := by omega
    unfold boundedDraw
    rw [dif_neg hn']
    refine ⟨_, rfl, Int.ofNat_nonneg _, ?_⟩
    have htn : 0 < n.toNat := by omega
    have hmod : draws (Nat.find (h (by omega))) % n.toNat < n.toNat :=
      Nat.mod_lt _ htn
    omega

/-- `C4`: for every bound `n`, the bounded draws `Intn`, `Int31n` and
`Int63n` fail with a caller error when `n ≤ 0`, and when `n > 0` they
return a value in `[0, n)`. -/
theorem bounded_draw_range (draws : Nat → Nat) (n : Int)
    (h63 : 0 < n → ∃ i, draws i < 2 ^ 63 / n.toNat * n.toNat)
    (h31 : 0 < n → ∃ i, draws i < 2 ^ 31 / n.toNat * n.toNat) :
    (n ≤ 0 → Intn draws n h63 = .callerError ∧ Int31n draws n h31 = .callerError ∧
      Int63n draws n h63 = .callerError) ∧
    (0 < n → (∃ v, Intn draws n h63 = .ok v ∧ 0 ≤ v ∧ v < n) ∧
      (∃ v, Int31n draws n h31 = .ok v ∧ 0 ≤ v ∧ v < n) ∧
      (∃ v, Int63n draws n h63 = .ok v ∧ 0 ≤ v ∧ v < n)) := by
  refine ⟨fun hn => ⟨?_, ?_, ?_⟩, fun hn => ⟨?_, ?_, ?_⟩⟩
  · exact (boundedDraw_spec 63 draws n h63).1 hn
  · exact (boundedDraw_spec 31 draws n h31).1 hn
  · exact (boundedDraw_spec 63 draws n h63).1 hn
  · exact (boundedDraw_spec 63 draws n h63).2 hn
  · exact (boundedDraw_spec 31 draws n h31).2 hn
  · exact (boundedDraw_spec 63 draws n h63).2 hn

/-- Witness for `C4`: with bound 5 and a source that always draws 3, each
bounded draw accepts and returns a value in `[0, 5)`. -/
theorem bounded_draw_range_witness :
    (∃ v, Intn (fun _ => 3) 5 (fun _ => ⟨0, by decide⟩) = .ok v ∧ 0 ≤ v ∧ v < 5) ∧
    (∃ v, Int31n (fun _ => 3) 5 (fun _ => ⟨0, by decide⟩) = .ok v ∧ 0 ≤ v ∧ v < 5) ∧
    (∃ v, Int63n (fun _ => 3) 5 (fun _ => ⟨0, by decide⟩) = .ok v ∧ 0 ≤ v ∧ v < 5) :=
  (bounded_draw_range (fun _ => 3) 5 (fun _ => ⟨0, by decide⟩)
    (fun _ => ⟨0, by decide⟩)).2 (by norm_num)

/-- Modelled from the spec: `Float64()` — the standard mantissa
construction, a uniform 53-bit integer (a source draw reduced to 53 bits)
divided by `2^53`; every such quotient is exactly representable in
binary64, so the value is modelled in `ℚ`. -/
def Float64 (u : Nat) : ℚ := ((u % 2 ^ 53 : Nat) : ℚ) / 2 ^ 53

/-- Modelled from the spec: `Float32()` — the standard mantissa
construction with the 24-bit binary32 mantissa: a uniform 24-bit integer
divided by `2^24`, modelled in `ℚ`. -/
def Float32 (u : Nat) : ℚ := ((u % 2 ^ 24 : Nat) : ℚ) / 2 ^ 24

/-- `C6`: every value of `Float64` and `Float32` lies in `[0, 1)` — never
1.0, never negative — and 0.0 is reachable (the all-zero draw produces
it). -/
theorem float_range (u : Nat) :
    (0 ≤ Float64 u ∧ Float64 u < 1) ∧ (0 ≤ Float32 u ∧ Float32 u < 1) ∧
    (∃ v, Float64 v = 0) ∧ (∃ v, Float32 v = 0) := by
  refine ⟨⟨?_, ?_⟩, ⟨?_, ?_⟩, ⟨0, by norm_num [Float64]⟩, ⟨0, by norm_num [Float32]⟩⟩
  · exact div_nonneg (Nat.cast_nonneg _) (by norm_num)
  · simp only [Float64]
    rw [div_lt_one (by norm_num)]
    exact_mod_cast Nat.mod_lt u (by norm_num)
  · exact div_nonneg (Nat.cast_nonneg _) (by norm_num)
  · simp only [Float32]
    rw [div_lt_one (by norm_num)]
    exact_mod_cast Nat.mod_lt u (by norm_num)

/-- Map a function over the value of a normal return, preserving a
panic. -/
def Outcome.map (f : α → β) : Outcome α → Outcome β
  | .ok a => .ok (f a)
  | .panicked e => .panicked e

/-- Modelled from the spec: the package-level `Int()` — truncation of the
source `Int63` to the int width (64 bits), a pass-through preserving the
value. Named `Int'` because `Int` is taken by Lean's integers. -/
def Int' (stream : Nat → Except Err Buf8)
    (h : ∃ i, int63Rejects (stream i) = false) : Outcome Int :=
  Int63 stream h

/-- Modelled from the spec: the package-level `Int31()` — truncation of
the source `Int63` to 31 bits, keeping the high bits (division by
`2^32`). -/
def Int31 (stream : Nat → Except Err Buf8)
    (h : ∃ i, int63Rejects (stream i) = false) : Outcome Int :=
  (Int63 stream h).map (fun x => x / 2 ^ 32)

/-- `C10`: the package-level `Int()` and `Int31()` draws only return
non-negative values (with `Int31` moreover below `2^31`), because the
source `Int63` never produces a value with the sign bit set. -/
theorem int_int31_nonneg (stream : Nat → Except Err Buf8)
    (h : ∃ i, int63Rejects (stream i) = false) (x y : Int)
    (hx : Int' stream h = .ok x) (hy : Int31 stream h = .ok y) :
    0 ≤ x ∧ 0 ≤ y ∧ y < 2 ^ 31 := by
  have hx' := int63_ok_bounds ⟨⟩ stream h x hx
  rcases hz : Int63 stream h with z | e
  · have hz' := int63_ok_bounds ⟨⟩ stream h z hz
    have : y = z / 2 ^ 32 := by
      rw [Int31, hz] at hy
      simpa [Outcome.map] using hy.symm
    subst this
    refine ⟨hx'.1, Int.ediv_nonneg hz'.1 (by norm_num), ?_⟩
    obtain ⟨hz0, hz1⟩ := hz'
    norm_num at hz1 ⊢
    omega
  · rw [Int31, hz] at hy
    exact absurd hy (by simp [Outcome.map])

/-- Witness for `C10`: on the all-zero stream both `Int'` and `Int31`
return 0, which is non-negative and below `2^31`. -/
theorem int_int31_nonneg_witness :
    (0 : Int) ≤ 0 ∧ (0 : Int) ≤ 0 ∧ (0 : Int) < 2 ^ 31 := by
  have h1 : Int' streamZero streamZero_halts = .ok 0 := int63_streamZero
  have h2 : Int31 streamZero streamZero_halts = .ok 0 := by
    rw [Int31, Int63, int63_streamZero]
    simp [Outcome.map]
  exact int_int31_nonneg streamZero streamZero_halts 0 0 h1 h2

/-- Modelled from the spec: one step of the Fisher–Yates-style build used
by `exp/rand` `Perm(n)` (not in this repository): with `m` the sequence
built so far (length `i`) and `j ∈ [0, i]` the bounded draw of step `i`,
the step `m[i] = m[j]; m[j] = i` appends `i` when `j = i`, and otherwise
puts `i` at position `j` and the old occupant of `j` at the new last
position `i`. -/
def permInsert (m : List Nat) (i j : Nat) : List Nat :=
  if j = i then m ++ [i] else m.set j i ++ [m.getD j 0]

/-- Modelled from the spec: `Perm(n)` — a uniformly random permutation of
`[0, n)` built by a Fisher–Yates-style shuffle driven by bounded integer
draws; `choose i` is the draw `Intn(i+1) ∈ [0, i]` of step `i`. -/
def Perm (choose : Nat → Nat) : Nat → List Nat
  | 0 => []
  | n + 1 => permInsert (Perm choose n) n (choose n)

/-- Replacing the element at a valid position `j` by `a` and appending the
old occupant is, up to reordering, just adding `a`. -/
theorem set_append_getD_perm :
    ∀ (m : List Nat) (j a : Nat), j < m.length →
      List.Perm (m.set j a ++ [m.getD j 0]) (a :: m) := by
  intro m
  induction m with
  | nil => intro j a hj; simp at hj
  | cons x xs ih =>
    intro j a hj
    cases j with
    | zero =>
      simp only [List.set_cons_zero, List.getD_cons_zero, List.cons_append]
      exact (List.perm_append_singleton x xs).cons a
    | succ k =>
      simp only [List.set_cons_succ, List.getD_cons_succ, List.cons_append]
      have hk : k < xs.length := by simpa using hj
      exact ((ih k a hk).cons x).trans (List.Perm.swap a x xs)

/-- Each `Perm` prefix is a permutation of the corresponding range. -/
theorem perm_perm (choose : Nat → Nat) (hc : ∀ i, choose i ≤ i) :
    ∀ n, List.Perm (Perm choose n) (List.range n) := by
  intro n
  induction n with
  | zero => simp [Perm]
  | succ n ih =>
    show List.Perm (permInsert (Perm choose n) n (choose n)) _
    rw [List.range_succ]
    rcases Nat.lt_or_ge (choose n) n with hlt | hge
    · rw [permInsert, if_neg (by omega)]
      have hlen : (Perm choose n).length = n := ih.length_eq.trans (List.length_range n)
      refine (set_append_getD_perm (Perm choose n) (choose n) n (by omega)).trans ?_
      exact (ih.cons n).trans (List.perm_append_singleton n (List.range n)).symm
    · have he : choose n = n := le_antisymm (hc n) hge
      rw [permInsert, if_pos he]
      exact ih.append_right [n]

/-- `C7`: for every `n ≥ 0`, `Perm(n)` returns a sequence of length
exactly `n` that is a permutation of the integers `[0, n)` — same
multiset, no repeats, no omissions — and `Perm(0)` is empty. -/
theorem perm_is_permutation (choose : Nat → Nat) (n : Nat)
    (hc : ∀ i, choose i ≤ i) :
    (Perm choose n).length = n ∧ List.Perm (Perm choose n) (List.range n) ∧
    Perm choose 0 = ([] : List Nat) := by
  have hp := perm_perm choose hc n
  exact ⟨hp.length_eq.trans (List.length_range n), hp, rfl⟩

/-- Witness for `C7`: with the draw stream that always picks 0, `Perm 3`
has length 3 and is a permutation of `[0, 3)`. -/
theorem perm_is_permutation_witness :
    (Perm (fun _ => 0) 3).length = 3 ∧
    List.Perm (Perm (fun _ => 0) 3) (List.range 3) ∧
    Perm (fun _ => 0) 0 = ([] : List Nat) :=
  perm_is_permutation (fun _ => 0) 3 (fun i => Nat.zero_le i)

/-- Modelled from the spec: `Shuffle(n, swap)` — the Fisher–Yates shuffle
of `exp/rand` (not in this repository): for `i` from `n - 1` down to 1 it
draws `j := Int63n(i+1) ∈ [0, i]` and invokes `swap(i, j)`. Its effect on
the caller is exactly the sequence of index pairs passed to `swap`, which
this function returns in call order; `choose i` is the draw of the step
whose first index is `i`. -/
def Shuffle (choose : Nat → Nat) : Nat → List (Nat × Nat)
  | 0 => []
  | 1 => []
  | n + 2 => (n + 1, choose (n + 1)) :: Shuffle choose (n + 1)

/-- Counterexample to `C8` as stated: with `n = 2` and a (valid) draw
stream picking `j = i` at every step, `Shuffle` invokes `swap` with the
pair `(1, 1)`, whose two indices are not distinct. -/
theorem shuffle_swap_equal_indices :
    ¬ (∀ p ∈ Shuffle (fun i => i) 2, p.1 ≠ p.2) := by
  intro hall
  exact hall (1, 1) (by decide) rfl

/-- `C8` (amended): for every `n ≥ 0`, every invocation of the
caller-supplied `swap` receives two indices that both lie in `[0, n)`
(they need not be distinct: Fisher–Yates draws `j ∈ [0, i]` and may draw
`j = i`). -/
theorem shuffle_swap_in_range (choose : Nat → Nat) (n : Nat)
    (hc : ∀ i, choose i ≤ i) :
    ∀ p ∈ Shuffle choose n, p.1 < n ∧ p.2 < n := by
  induction n with
  | zero => intro p hp; simp [Shuffle] at hp
  | succ m ih =>
    cases m with
    | zero => intro p hp; simp [Shuffle] at hp
    | succ k =>
      intro p hp
      simp only [Shuffle] at hp
      rcases List.mem_cons.mp hp with he | hm
      · subst he
        exact ⟨Nat.lt_succ_self _, Nat.lt_succ_of_le (hc (k + 1))⟩
      · obtain ⟨h1, h2⟩ := ih p hm
        exact ⟨Nat.lt_succ_of_lt h1, Nat.lt_succ_of_lt h2⟩

/-- Witness for `C8` (amended): in `Shuffle 3` with the identity draw
stream, the pair `(1, 1)` is passed to `swap` and both its indices lie in
`[0, 3)`. -/
theorem shuffle_swap_in_range_witness :
    (1, 1) ∈ Shuffle (fun i => i) 3 ∧ (1 : Nat) < 3 ∧ (1 : Nat) < 3 := by
  have hm : (1, 1) ∈ Shuffle (fun i : Nat => i) 3 := by decide
  exact ⟨hm, shuffle_swap_in_range (fun i => i) 3 (fun i => Nat.le_refl i) (1, 1) hm⟩

end Saferand
